import Mathlib

/-
Shallow embedding of src/mod_sorter.py (Sims mods auto-sorter).

The script loads a JSON configuration holding an ordered rule set
(category name to regex pattern), then walks every zip archive in a
source folder.  For each member whose name ends in ".package" (and which
is not a directory entry) it strips the directory components, classifies
the base filename by the first rule whose pattern hits via
re.search(pattern, name, re.IGNORECASE), creates the category
subdirectory, and writes the payload there unless the destination file
already exists.  After all members of an archive are handled the archive
is moved to a processed area; a BadZipFile or any other exception leaves
the archive in place and the run continues with the next archive.

Machine-level notes on the embedding:
* Python regexes are modelled by an explicit AST plus a Brzozowski
  derivative matcher.  The parser covers the constructs a rule pattern
  can reasonably use: literal characters, the dot, escapes (\d \D \w \W
  \s \S \n \t \r and escaped punctuation), character classes with
  ranges and negation, grouping, alternation and the * + ? repetitions
  (with the lazy marker).  Constructs outside this subset are treated
  like malformed patterns (parse failure), which models re.error.
  IGNORECASE is modelled by lowering literal characters and class
  bounds at parse time and lowering the searched string (adequate for
  ASCII, which is also what Char.toLower implements).
* The filesystem under the mods path is a pair of a directory list and
  an association list from (category folder, filename) to content.
* I/O failure while writing a member is an oracle on the destination
  path; a raised exception is propagated as an archive-level error,
  exactly like the single try/except of process_zips.
-/

/-- Abstract syntax of the regular expressions used by rule patterns. -/
inductive Regex where
  | emp : Regex
  | eps : Regex
  | chr : Char → Regex
  | dot : Regex
  | cls : Bool → List (Char × Char) → Regex
  | alt : Regex → Regex → Regex
  | cat : Regex → Regex → Regex
  | star : Regex → Regex
deriving DecidableEq

/-- Does the regex accept the empty string? -/
def Regex.nullable : Regex → Bool
  | .emp => false
  | .eps => true
  | .chr _ => false
  | .dot => false
  | .cls _ _ => false
  | .alt r s => r.nullable || s.nullable
  | .cat r s => r.nullable && s.nullable
  | .star _ => true

/-- Membership of a character in a list of inclusive character ranges. -/
def inRanges (c : Char) (rs : List (Char × Char)) : Bool :=
  rs.any fun p => decide (p.1 ≤ c ∧ c ≤ p.2)

/-- Brzozowski derivative of a regex with respect to one character. -/
def Regex.deriv : Regex → Char → Regex
  | .emp, _ => .emp
  | .eps, _ => .emp
  | .chr d, c => if d = c then .eps else .emp
  | .dot, c => if c = '\n' then .emp else .eps
  | .cls neg rs, c => if inRanges c rs ≠ neg then .eps else .emp
  | .alt r s, c => .alt (r.deriv c) (s.deriv c)
  | .cat r s, c =>
    if r.nullable then .alt (.cat (r.deriv c) s) (s.deriv c)
    else .cat (r.deriv c) s
  | .star r, c => .cat (r.deriv c) (.star r)

/-- Does the regex match some leading segment of the character list? -/
def matchSomePre (r : Regex) : List Char → Bool
  | [] => r.nullable
  | c :: cs => r.nullable || matchSomePre (r.deriv c) cs

/-- Does the regex match somewhere inside the character list?  This is
the boolean content of Python re.search. -/
def regexSearch (r : Regex) : List Char → Bool
  | [] => r.nullable
  | c :: cs => matchSomePre r (c :: cs) || regexSearch r cs

/-- Translation of one escape sequence to a regex atom; alphanumeric
escapes outside the supported set are malformed. -/
def escAtom (c : Char) : Option Regex :=
  if c = 'd' then some (.cls false [('0', '9')])
  else if c = 'D' then some (.cls true [('0', '9')])
  else if c = 'w' then some (.cls false [('a', 'z'), ('0', '9'), ('_', '_')])
  else if c = 'W' then some (.cls true [('a', 'z'), ('0', '9'), ('_', '_')])
  else if c = 's' then
    some (.cls false [(' ', ' '), ('\t', '\t'), ('\n', '\n'), ('\r', '\r'),
      ('\x0b', '\x0b'), ('\x0c', '\x0c')])
  else if c = 'S' then
    some (.cls true [(' ', ' '), ('\t', '\t'), ('\n', '\n'), ('\r', '\r'),
      ('\x0b', '\x0b'), ('\x0c', '\x0c')])
  else if c = 'n' then some (.chr '\n')
  else if c = 't' then some (.chr '\t')
  else if c = 'r' then some (.chr '\r')
  else if c.isAlpha || c.isDigit then none
  else some (.chr c.toLower)

/-- Items of a character class, accumulated until the closing bracket. -/
def parseClassItems : Nat → List Char → List (Char × Char) →
    Option (List (Char × Char) × List Char)
  | 0, _, _ => none
  | _ + 1, [], _ => none
  | _ + 1, ']' :: rest, acc => some (acc, rest)
  | _ + 1, a :: '-' :: ']' :: rest, acc =>
    some (('-', '-') :: (a.toLower, a.toLower) :: acc, rest)
  | fuel + 1, a :: '-' :: b :: rest, acc =>
    parseClassItems fuel rest ((a.toLower, b.toLower) :: acc)
  | fuel + 1, a :: rest, acc =>
    parseClassItems fuel rest ((a.toLower, a.toLower) :: acc)

/-- A character class, directly after its opening bracket; a leading
caret negates, a bracket right after that is a literal member. -/
def parseClass (fuel : Nat) (l : List Char) : Option (Regex × List Char) :=
  match l with
  | '^' :: ']' :: rest =>
    (parseClassItems fuel rest [(']', ']')]).map fun p => (.cls true p.1, p.2)
  | '^' :: rest =>
    (parseClassItems fuel rest []).map fun p => (.cls true p.1, p.2)
  | ']' :: rest =>
    (parseClassItems fuel rest [(']', ']')]).map fun p => (.cls false p.1, p.2)
  | rest =>
    (parseClassItems fuel rest []).map fun p => (.cls false p.1, p.2)

/-- Repetition operators. -/
def isRepOp (c : Char) : Bool := c = '*' || c = '+' || c = '?'

/-- Does the list start with a repetition operator? -/
def headIsRep : List Char → Bool
  | c :: _ => isRepOp c
  | [] => false

/-- Finish a repetition: consume an optional lazy marker, reject a
stacked second repetition (multiple repeat is an error in Python). -/
def repTail (r : Regex) (rest : List Char) : Option (Regex × List Char) :=
  match rest with
  | '?' :: rest' => if headIsRep rest' then none else some (r, rest')
  | c :: rest' => if isRepOp c then none else some (r, c :: rest')
  | [] => some (r, [])

mutual

/-- One regex atom: group, class, dot, escape or literal character. -/
def parseAtom : Nat → List Char → Option (Regex × List Char)
  | 0, _ => none
  | fuel + 1, l =>
    match l with
    | [] => none
    | '(' :: rest =>
      match parseAlt fuel rest with
      | some (r, ')' :: rest') => some (r, rest')
      | _ => none
    | '[' :: rest => parseClass fuel rest
    | '.' :: rest => some (.dot, rest)
    | '\\' :: c :: rest => (escAtom c).map fun r => (r, rest)
    | '\\' :: [] => none
    | c :: rest =>
      if isRepOp c || c = ')' || c = '|' || c = '^' || c = '$' then none
      else some (.chr c.toLower, rest)

/-- An atom followed by an optional repetition operator. -/
def parseRep : Nat → List Char → Option (Regex × List Char)
  | 0, _ => none
  | fuel + 1, l =>
    match parseAtom fuel l with
    | none => none
    | some (r, rest) =>
      match rest with
      | '*' :: rest' => repTail (.star r) rest'
      | '+' :: rest' => repTail (.cat r (.star r)) rest'
      | '?' :: rest' => repTail (.alt r .eps) rest'
      | _ => some (r, rest)

/-- A concatenation of repetitions, stopping at a bar, a closing
parenthesis or the end of the pattern. -/
def parseSeq : Nat → List Char → Option (Regex × List Char)
  | 0, _ => none
  | fuel + 1, l =>
    match l with
    | [] => some (.eps, [])
    | ')' :: rest => some (.eps, ')' :: rest)
    | '|' :: rest => some (.eps, '|' :: rest)
    | _ =>
      match parseRep fuel l with
      | none => none
      | some (r, rest) =>
        match parseSeq fuel rest with
        | none => none
        | some (s, rest') => some (.cat r s, rest')

/-- Alternation, the top level of the grammar. -/
def parseAlt : Nat → List Char → Option (Regex × List Char)
  | 0, _ => none
  | fuel + 1, l =>
    match parseSeq fuel l with
    | none => none
    | some (r, rest) =>
      match rest with
      | '|' :: rest' =>
        match parseAlt fuel rest' with
        | none => none
        | some (s, rest'') => some (.alt r s, rest'')
      | _ => some (r, rest)

end

/-- Compilation of a pattern string; none models re.error for a
malformed (or unsupported) pattern. -/
def parseRegex (p : String) : Option Regex :=
  match parseAlt (8 * (p.data.length + 1)) p.data with
  | some (r, []) => some r
  | _ => none

/-- Python str.lower, adequate for ASCII. -/
def lowerStr (s : String) : String := String.mk (s.data.map Char.toLower)

/-- Boolean content of re.search(pattern, fname, re.IGNORECASE); none
models the re.error exception for a malformed pattern. -/
def reSearchI (pat fname : String) : Option Bool :=
  (parseRegex pat).map fun r => regexSearch r (fname.data.map Char.toLower)

/-- The classification loop of process_zips (lines 81 to 90): the target
starts at the unsorted folder name, the rules are scanned in order and
the first pattern that hits wins.  none models a raised re.error. -/
def classify (rules : List (String × String)) (unsorted : String)
    (fname : String) : Option (String × Bool) :=
  match rules with
  | [] => some (unsorted, false)
  | (folderKey, patternStr) :: rest =>
    match reSearchI patternStr fname with
    | none => none
    | some true => some (folderKey, true)
    | some false => classify rest unsorted fname

example : classify [("hair", "hai"), ("accessories", "air")] "_unsorted"
    "long_hair_01.package" = some ("hair", true) := by decide

example : classify [("hair", "(")] "_unsorted" "foo.package" = none := by decide

/-- Path separator characters: zip member names use the slash, and on
Windows os.path.basename also splits on the backslash. -/
def isSep (c : Char) : Bool := c = '/' || c = '\\'

/-- Characters after the last path separator. -/
def basenameL (l : List Char) : List Char :=
  (l.reverse.takeWhile fun c => !isSep c).reverse

/-- os.path.basename, as used on a path-within-archive (line 78). -/
def basename (s : String) : String := String.mk (basenameL s.data)

/-- Is the first list a leading segment of the second? -/
def revPre : List Char → List Char → Bool
  | [], _ => true
  | _ :: _, [] => false
  | c :: cs, d :: ds => if c = d then revPre cs ds else false

/-- Python str.endswith, checked on the reversed character lists. -/
def strEndsWith (s tail : String) : Bool :=
  revPre tail.data.reverse s.data.reverse

/-- A zip member: its path within the archive and its payload. -/
structure Member where
  filename : String
  content : List Nat
deriving DecidableEq

/-- ZipInfo.is_dir: a member is a directory entry when its name ends
with a slash. -/
def Member.isDir (m : Member) : Bool := strEndsWith m.filename "/"

/-- Line 73: only non-directory members whose lowered name ends in
".package" are processed. -/
def Member.eligible (m : Member) : Bool :=
  strEndsWith (lowerStr m.filename) ".package" && !m.isDir

/-- A zip archive; readable is false when opening raises BadZipFile. -/
structure Archive where
  name : String
  readable : Bool
  members : List Member
deriving DecidableEq

/-- The destination tree under the mods path: category subdirectories
and an association list from (category folder, filename) to content. -/
structure FS where
  dirs : List String
  files : List ((String × String) × List Nat)
deriving DecidableEq

/-- Lookup in the file association list. -/
def lookupKey (k : String × String) :
    List ((String × String) × List Nat) → Option (List Nat)
  | [] => none
  | e :: es => if e.1 = k then some e.2 else lookupKey k es

/-- Content stored at destination folder/name, when present. -/
def FS.lookupFile (fs : FS) (folder name : String) : Option (List Nat) :=
  lookupKey (folder, name) fs.files

/-- Line 100: does the destination file already exist? -/
def FS.fileExists (fs : FS) (folder name : String) : Bool :=
  (fs.lookupFile folder name).isSome

/-- Line 95: mkdir(parents=True, exist_ok=True) for the category dir. -/
def FS.mkdir (fs : FS) (d : String) : FS :=
  if d ∈ fs.dirs then fs else ⟨d :: fs.dirs, fs.files⟩

/-- Lines 106 to 107: write the payload to the destination file. -/
def FS.write (fs : FS) (folder name : String) (content : List Nat) : FS :=
  ⟨fs.dirs, ((folder, name), content) :: fs.files⟩

/-- Per-member observable outcome. -/
inductive Outcome where
  | ignored : Outcome
  | skipExists : String → String → Outcome
  | extracted : String → String → Bool → Outcome
deriving DecidableEq

/-- Exceptions that escape member processing to the per-archive
try/except: a re.error from a malformed pattern, or an I/O error while
writing the destination file. -/
inductive ArchiveError where
  | regexError : ArchiveError
  | writeError : String → String → ArchiveError
deriving DecidableEq

/-- Result of handling one member: the new filesystem and either an
outcome or a raised exception. -/
inductive MemberResult where
  | ok : FS → Outcome → MemberResult
  | err : FS → ArchiveError → MemberResult
deriving DecidableEq

/-- The filesystem component of a member result. -/
def MemberResult.fs : MemberResult → FS
  | .ok fs _ => fs
  | .err fs _ => fs

/-- Lines 76 to 112 for a member that passed the eligibility test:
flatten the name, classify, create the category directory, skip when
the destination exists, else write the payload.  writeFails is the
oracle deciding whether the write raises an I/O error. -/
def processEligible (rules : List (String × String)) (unsorted : String)
    (writeFails : String → String → Bool) (fs : FS) (m : Member) :
    MemberResult :=
  if basename m.filename = "" then .ok fs .ignored
  else
    match classify rules unsorted (basename m.filename) with
    | none => .err fs .regexError
    | some (folder, matched) =>
      if (fs.mkdir folder).fileExists folder (basename m.filename) then
        .ok (fs.mkdir folder) (.skipExists folder (basename m.filename))
      else if writeFails folder (basename m.filename) then
        .err (fs.mkdir folder) (.writeError folder (basename m.filename))
      else
        .ok ((fs.mkdir folder).write folder (basename m.filename) m.content)
          (.extracted folder (basename m.filename) matched)

/-- One iteration of the member loop (lines 72 to 112). -/
def processMember (rules : List (String × String)) (unsorted : String)
    (writeFails : String → String → Bool) (fs : FS) (m : Member) :
    MemberResult :=
  if m.eligible then processEligible rules unsorted writeFails fs m
  else .ok fs .ignored

/-- State after the member loop: the filesystem, the outcomes of the
members handled, and the exception that interrupted the loop, if any. -/
structure MembersResult where
  fs : FS
  outs : List Outcome
  err : Option ArchiveError
deriving DecidableEq

/-- The member loop of one archive; an exception stops the loop and is
reported, leaving the outcomes gathered so far. -/
def processMembers (rules : List (String × String)) (unsorted : String)
    (writeFails : String → String → Bool) : FS → List Member → MembersResult
  | fs, [] => ⟨fs, [], none⟩
  | fs, m :: ms =>
    match processMember rules unsorted writeFails fs m with
    | .err fs' e => ⟨fs', [], some e⟩
    | .ok fs' out =>
      match processMembers rules unsorted writeFails fs' ms with
      | ⟨fs'', outs, e⟩ => ⟨fs'', out :: outs, e⟩

/-- Result of one archive: done (all members handled, archive relocated
to the processed area), open failure (BadZipFile, archive left in
place), or aborted by an exception (archive left in place). -/
inductive ArchiveResult where
  | done : List Outcome → ArchiveResult
  | openFailed : ArchiveResult
  | aborted : ArchiveError → List Outcome → ArchiveResult
deriving DecidableEq

/-- The per-member outcomes an archive result records. -/
def ArchiveResult.outcomes : ArchiveResult → List Outcome
  | .done outs => outs
  | .openFailed => []
  | .aborted _ outs => outs

/-- Was the archive moved to the processed area? -/
def ArchiveResult.relocated : ArchiveResult → Bool
  | .done _ => true
  | _ => false

/-- Lines 69 to 123 for one archive: the try block opens the zip, runs
the member loop, then relocates the archive; BadZipFile and any other
exception are caught, leaving the archive in the source folder. -/
def processArchive (rules : List (String × String)) (unsorted : String)
    (writeFails : String → String → Bool) (fs : FS) (a : Archive) :
    FS × ArchiveResult :=
  if a.readable = false then (fs, .openFailed)
  else
    match processMembers rules unsorted writeFails fs a.members with
    | ⟨fs', outs, some e⟩ => (fs', .aborted e outs)
    | ⟨fs', outs, none⟩ => (fs', .done outs)

/-- The archive loop of process_zips (line 67), over the enumerated zip
files, returning the final filesystem and the per-archive results. -/
def processZips (rules : List (String × String)) (unsorted : String)
    (writeFails : String → String → Bool) :
    FS → List Archive → FS × List (String × ArchiveResult)
  | fs, [] => (fs, [])
  | fs, a :: as =>
    match processArchive rules unsorted writeFails fs a with
    | (fs₁, r) =>
      match processZips rules unsorted writeFails fs₁ as with
      | (fs₂, rs) => (fs₂, (a.name, r) :: rs)

/-- Contribution of one outcome to count_moved (line 110). -/
def outMoved : Outcome → Nat
  | .extracted _ _ true => 1
  | _ => 0

/-- Contribution of one outcome to count_unsorted (line 112). -/
def outUnsorted : Outcome → Nat
  | .extracted _ _ false => 1
  | _ => 0

/-- The count_moved counter: extractions whose category came from a rule
match (line 110). -/
def countMoved : List Outcome → Nat
  | [] => 0
  | o :: outs => outMoved o + countMoved outs

/-- The count_unsorted counter: extractions into the fallback category
(line 112). -/
def countUnsorted : List Outcome → Nat
  | [] => 0
  | o :: outs => outUnsorted o + countUnsorted outs

/-- count_moved accumulated over the whole run. -/
def runMoved : List (String × ArchiveResult) → Nat
  | [] => 0
  | p :: ps => countMoved p.2.outcomes + runMoved ps

/-- count_unsorted accumulated over the whole run. -/
def runUnsorted : List (String × ArchiveResult) → Nat
  | [] => 0
  | p :: ps => countUnsorted p.2.outcomes + runUnsorted ps

/-- The configuration document, as the JSON fields process_zips reads
(lines 45 to 47); optional fields fall back to defaults there. -/
structure ConfigDoc where
  sims_mods_path_override : Option String
  source_zips_folder : Option String
  unsorted_folder_name : Option String
  rules : Option (List (String × String))
deriving DecidableEq

/-- load_config (lines 11 to 25): fails when config.json is absent or
not valid JSON, and otherwise returns the parsed document unchecked; in
particular no rule pattern is validated here. -/
def load_config (configExists : Bool) (parsed : Option ConfigDoc) :
    Except String ConfigDoc :=
  if configExists = false then .error "config.json not found"
  else
    match parsed with
    | none => .error "config.json is not valid JSON"
    | some c => .ok c

/-- The run over a loaded configuration: rules and the unsorted folder
name are read with their defaults (lines 46 to 47). -/
def runSorter (doc : ConfigDoc) (writeFails : String → String → Bool)
    (fs : FS) (archives : List Archive) :
    FS × List (String × ArchiveResult) :=
  processZips (doc.rules.getD []) (doc.unsorted_folder_name.getD "_unsorted")
    writeFails fs archives

/-- Re-running a terminal outcome against the grown filesystem: an
extraction or a skip turns into a skip, outside-scope stays outside. -/
def reprocess : Outcome → Outcome
  | .ignored => .ignored
  | .skipExists f n => .skipExists f n
  | .extracted f n _ => .skipExists f n

/-- Re-running a finished archive result. -/
def reprocessResult : ArchiveResult → ArchiveResult
  | .done outs => .done (outs.map reprocess)
  | .openFailed => .openFailed
  | .aborted e outs => .aborted e outs

/-- The second filesystem has every directory of the first and stores
every file of the first with the same content. -/
def FS.Extends (big small : FS) : Prop :=
  (∀ d, d ∈ small.dirs → d ∈ big.dirs) ∧
  ∀ f n, small.fileExists f n = true →
    big.lookupFile f n = small.lookupFile f n

theorem fsExtends_refl (fs : FS) : fs.Extends fs :=
  ⟨fun _ h => h, fun _ _ _ => rfl⟩

theorem fsExtends_trans {fs₃ fs₂ fs₁ : FS} (h₃₂ : fs₃.Extends fs₂)
    (h₂₁ : fs₂.Extends fs₁) : fs₃.Extends fs₁ := by
  refine ⟨fun d hd => h₃₂.1 d (h₂₁.1 d hd), fun f n he => ?_⟩
  have h2 : fs₂.lookupFile f n = fs₁.lookupFile f n := h₂₁.2 f n he
  have he₂ : fs₂.fileExists f n = true := by
    unfold FS.fileExists at *
    rw [h2]
    exact he
  rw [h₃₂.2 f n he₂, h2]

theorem fsExtends_existsMono {fs' fs : FS} (h : fs'.Extends fs) {f n : String}
    (he : fs.fileExists f n = true) : fs'.fileExists f n = true := by
  unfold FS.fileExists at *
  rw [h.2 f n he]
  exact he

theorem lookup_mkdir (fs : FS) (d f n : String) :
    (fs.mkdir d).lookupFile f n = fs.lookupFile f n := by
  unfold FS.mkdir
  split <;> rfl

theorem fileExists_mkdir (fs : FS) (d f n : String) :
    (fs.mkdir d).fileExists f n = fs.fileExists f n := by
  unfold FS.fileExists
  rw [lookup_mkdir]

theorem mkdir_dirs_self (fs : FS) (d : String) : d ∈ (fs.mkdir d).dirs := by
  unfold FS.mkdir
  split
  · assumption
  · exact List.mem_cons_self _ _

theorem mkdir_dirs_mono (fs : FS) (d x : String) (h : x ∈ fs.dirs) :
    x ∈ (fs.mkdir d).dirs := by
  unfold FS.mkdir
  split
  · exact h
  · exact List.mem_cons_of_mem _ h

theorem mkdir_eq_of_mem {fs : FS} {d : String} (h : d ∈ fs.dirs) :
    fs.mkdir d = fs := by
  unfold FS.mkdir
  rw [if_pos h]

theorem write_dirs (fs : FS) (f n : String) (c : List Nat) :
    (fs.write f n c).dirs = fs.dirs := rfl

theorem lookup_write_self (fs : FS) (f n : String) (c : List Nat) :
    (fs.write f n c).lookupFile f n = some c := by
  simp [FS.write, FS.lookupFile, lookupKey]

theorem lookup_write_ne (fs : FS) {f' n' f n : String} (c : List Nat)
    (h : (f', n') ≠ (f, n)) :
    (fs.write f n c).lookupFile f' n' = fs.lookupFile f' n' := by
  simp only [FS.write, FS.lookupFile, lookupKey]
  rw [if_neg (Ne.symm h)]

theorem fileExists_write_self (fs : FS) (f n : String) (c : List Nat) :
    (fs.write f n c).fileExists f n = true := by
  simp [FS.fileExists, lookup_write_self]

theorem mkdir_extends (fs : FS) (d : String) : (fs.mkdir d).Extends fs :=
  ⟨fun x hx => mkdir_dirs_mono fs d x hx, fun f n _ => lookup_mkdir fs d f n⟩

theorem write_extends {fs : FS} {f n : String} (c : List Nat)
    (h : fs.fileExists f n = false) : (fs.write f n c).Extends fs := by
  refine ⟨fun d hd => hd, fun f' n' he => ?_⟩
  by_cases hk : (f', n') = (f, n)
  · obtain ⟨rfl, rfl⟩ := Prod.mk.injEq .. ▸ hk
    rw [he] at h
    exact absurd h (by simp)
  · exact lookup_write_ne fs c hk

/-- Exhaustive case analysis of one member-loop iteration. -/
theorem pm_cases (rules : List (String × String)) (u : String)
    (wf : String → String → Bool) (fs : FS) (m : Member) :
    (m.eligible = false ∧ processMember rules u wf fs m = .ok fs .ignored)
  ∨ (m.eligible = true ∧ basename m.filename = "" ∧
      processMember rules u wf fs m = .ok fs .ignored)
  ∨ (∃ folder matched, m.eligible = true ∧ basename m.filename ≠ "" ∧
      classify rules u (basename m.filename) = some (folder, matched) ∧
      (((fs.mkdir folder).fileExists folder (basename m.filename) = true ∧
          processMember rules u wf fs m =
            .ok (fs.mkdir folder) (.skipExists folder (basename m.filename)))
        ∨ ((fs.mkdir folder).fileExists folder (basename m.filename) = false ∧
            ((wf folder (basename m.filename) = true ∧
                processMember rules u wf fs m =
                  .err (fs.mkdir folder)
                    (.writeError folder (basename m.filename)))
              ∨ (wf folder (basename m.filename) = false ∧
                  processMember rules u wf fs m =
                    .ok ((fs.mkdir folder).write folder
                          (basename m.filename) m.content)
                      (.extracted folder (basename m.filename) matched))))))
  ∨ (m.eligible = true ∧ basename m.filename ≠ "" ∧
      classify rules u (basename m.filename) = none ∧
      processMember rules u wf fs m = .err fs .regexError) := by
  by_cases he : m.eligible = true
  · by_cases hb : basename m.filename = ""
    · exact Or.inr (Or.inl ⟨he, hb, by simp [processMember, processEligible, he, hb]⟩)
    · cases hc : classify rules u (basename m.filename) with
      | none =>
        refine Or.inr (Or.inr (Or.inr ⟨he, hb, rfl, ?_⟩))
        simp [processMember, processEligible, he, hb, hc]
      | some p =>
        obtain ⟨folder, matched⟩ := p
        refine Or.inr (Or.inr (Or.inl ⟨folder, matched, he, hb, rfl, ?_⟩))
        by_cases hex : (fs.mkdir folder).fileExists folder (basename m.filename) = true
        · exact Or.inl ⟨hex, by simp [processMember, processEligible, he, hb, hc, hex]⟩
        · have hex' : (fs.mkdir folder).fileExists folder (basename m.filename) = false := by
            revert hex
            cases (fs.mkdir folder).fileExists folder (basename m.filename) <;> simp
          refine Or.inr ⟨hex', ?_⟩
          by_cases hwf : wf folder (basename m.filename) = true
          · exact Or.inl ⟨hwf, by simp [processMember, processEligible, he, hb, hc, hex', hwf]⟩
          · have hwf' : wf folder (basename m.filename) = false := by
              revert hwf
              cases wf folder (basename m.filename) <;> simp
            exact Or.inr ⟨hwf', by simp [processMember, processEligible, he, hb, hc, hex', hwf']⟩
  · have he' : m.eligible = false := by
      revert he
      cases m.eligible <;> simp
    exact Or.inl ⟨he', by simp [processMember, he']⟩

/-- One member-loop iteration only grows the destination tree and never
changes the content of an existing file. -/
theorem pm_fs_extends (rules : List (String × String)) (u : String)
    (wf : String → String → Bool) (fs : FS) (m : Member) :
    (processMember rules u wf fs m).fs.Extends fs := by
  rcases pm_cases rules u wf fs m with ⟨_, h⟩ | ⟨_, _, h⟩ |
    ⟨folder, matched, _, _, _, ⟨_, h⟩ | ⟨hex, ⟨_, h⟩ | ⟨_, h⟩⟩⟩ | ⟨_, _, _, h⟩
  · rw [h]; exact fsExtends_refl fs
  · rw [h]; exact fsExtends_refl fs
  · rw [h]; exact mkdir_extends fs folder
  · rw [h]; exact mkdir_extends fs folder
  · rw [h]
    exact fsExtends_trans (write_extends m.content hex) (mkdir_extends fs folder)
  · rw [h]; exact fsExtends_refl fs

/-- A member that reached an outcome stays settled: re-running it
against any filesystem extending the post-state changes nothing and
reports the member as skipped (or still outside scope). -/
theorem pm_ok_settled {rules : List (String × String)} {u : String}
    {wf : String → String → Bool} {fs fs₁ : FS} {m : Member} {out : Outcome}
    (h : processMember rules u wf fs m = .ok fs₁ out)
    (wf₂ : String → String → Bool) :
    ∀ fs₂, fs₂.Extends fs₁ →
      processMember rules u wf₂ fs₂ m = .ok fs₂ (reprocess out) := by
  intro fs₂ hext
  rcases pm_cases rules u wf fs m with ⟨he, hm⟩ | ⟨he, hb, hm⟩ |
    ⟨folder, matched, he, hb, hc, ⟨hex, hm⟩ | ⟨hex, ⟨hwf, hm⟩ | ⟨hwf, hm⟩⟩⟩ |
    ⟨he, hb, hc, hm⟩
  · rw [hm] at h
    obtain ⟨rfl, rfl⟩ := MemberResult.ok.injEq .. ▸ h
    simp [processMember, he, reprocess]
  · rw [hm] at h
    obtain ⟨rfl, rfl⟩ := MemberResult.ok.injEq .. ▸ h
    simp [processMember, processEligible, he, hb, reprocess]
  · rw [hm] at h
    obtain ⟨rfl, rfl⟩ := MemberResult.ok.injEq .. ▸ h
    have hd : folder ∈ fs₂.dirs :=
      hext.1 folder (mkdir_dirs_self fs folder)
    have hfe : fs₂.fileExists folder (basename m.filename) = true :=
      fsExtends_existsMono hext hex
    simp [processMember, processEligible, he, hb, hc, mkdir_eq_of_mem hd, hfe,
      reprocess]
  · rw [hm] at h
    exact absurd h (by simp)
  · rw [hm] at h
    obtain ⟨rfl, rfl⟩ := MemberResult.ok.injEq .. ▸ h
    have hd : folder ∈ fs₂.dirs := by
      refine hext.1 folder ?_
      rw [write_dirs]
      exact mkdir_dirs_self fs folder
    have hfe : fs₂.fileExists folder (basename m.filename) = true :=
      fsExtends_existsMono hext
        (fileExists_write_self (fs.mkdir folder) folder (basename m.filename)
          m.content)
    simp [processMember, processEligible, he, hb, hc, mkdir_eq_of_mem hd, hfe,
      reprocess]
  · rw [hm] at h
    exact absurd h (by simp)

/-- An eligible member with a nonempty base name that finished its
iteration without an exception was either skipped or extracted. -/
theorem pm_ok_terminal {rules : List (String × String)} {u : String}
    {wf : String → String → Bool} {fs fs₁ : FS} {m : Member} {out : Outcome}
    (h : processMember rules u wf fs m = .ok fs₁ out)
    (he : m.eligible = true) (hb : basename m.filename ≠ "") :
    (∃ f n, out = .skipExists f n) ∨ ∃ f n b, out = .extracted f n b := by
  rcases pm_cases rules u wf fs m with ⟨he', _⟩ | ⟨_, hb', _⟩ |
    ⟨folder, matched, _, _, _, ⟨_, hm⟩ | ⟨_, ⟨_, hm⟩ | ⟨_, hm⟩⟩⟩ |
    ⟨_, _, _, hm⟩
  · rw [he] at he'; exact absurd he' (by simp)
  · exact absurd hb' hb
  · rw [hm] at h
    obtain ⟨-, rfl⟩ := MemberResult.ok.injEq .. ▸ h
    exact Or.inl ⟨folder, basename m.filename, rfl⟩
  · rw [hm] at h
    exact absurd h (by simp)
  · rw [hm] at h
    obtain ⟨-, rfl⟩ := MemberResult.ok.injEq .. ▸ h
    exact Or.inr ⟨folder, basename m.filename, matched, rfl⟩
  · rw [hm] at h
    exact absurd h (by simp)

/-- The member loop only grows the destination tree and never changes
the content of an existing file, whether or not it was interrupted. -/
theorem ms_fs_extends (rules : List (String × String)) (u : String)
    (wf : String → String → Bool) :
    ∀ (ms : List Member) (fs : FS),
      (processMembers rules u wf fs ms).fs.Extends fs := by
  intro ms
  induction ms with
  | nil => intro fs; exact fsExtends_refl fs
  | cons m ms ih =>
    intro fs
    cases hm : processMember rules u wf fs m with
    | err fs' e =>
      have h1 : fs'.Extends fs := by
        have h := pm_fs_extends rules u wf fs m
        rw [hm] at h
        exact h
      simpa [processMembers, hm] using h1
    | ok fs' out =>
      have h1 : fs'.Extends fs := by
        have h := pm_fs_extends rules u wf fs m
        rw [hm] at h
        exact h
      cases hr : processMembers rules u wf fs' ms with
      | mk fs'' outs e =>
        have h2 : fs''.Extends fs' := by
          have h := ih fs'
          rw [hr] at h
          exact h
        simpa [processMembers, hm, hr] using fsExtends_trans h2 h1

/-- If the member loop of an archive ran to completion, re-running it
from any filesystem extending the final state changes nothing: every
member that was handled is now reported skipped (or is still outside
scope), and the loop again completes without an exception. -/
theorem ms_settled {rules : List (String × String)} {u : String}
    {wf : String → String → Bool} (wf₂ : String → String → Bool) :
    ∀ {ms : List Member} {fs fs₁ : FS} {outs : List Outcome},
      processMembers rules u wf fs ms = ⟨fs₁, outs, none⟩ →
      ∀ fs₂, fs₂.Extends fs₁ →
        processMembers rules u wf₂ fs₂ ms = ⟨fs₂, outs.map reprocess, none⟩ := by
  intro ms
  induction ms with
  | nil =>
    intro fs fs₁ outs h fs₂ _
    simp only [processMembers, MembersResult.mk.injEq] at h
    obtain ⟨rfl, rfl, -⟩ := h
    simp [processMembers]
  | cons m ms ih =>
    intro fs fs₁ outs h fs₂ hext
    cases hm : processMember rules u wf fs m with
    | err fs' e =>
      rw [processMembers, hm] at h
      simp at h
    | ok fs' out =>
      cases hr : processMembers rules u wf fs' ms with
      | mk fs'' outs' e' =>
        simp only [processMembers, hm, hr, MembersResult.mk.injEq] at h
        obtain ⟨rfl, rfl, he'⟩ := h
        subst he'
        have hext' : fs₂.Extends fs' := by
          refine fsExtends_trans hext ?_
          have h := ms_fs_extends rules u wf ms fs'
          rw [hr] at h
          exact h
        have hm₂ := pm_ok_settled hm wf₂ fs₂ hext'
        have htail := ih hr fs₂ hext
        simp [processMembers, hm₂, htail]

/-- A member loop that completed without an exception produced one
terminal outcome for every member; eligible members with a nonempty
base name were skipped or extracted. -/
theorem ms_terminal {rules : List (String × String)} {u : String}
    {wf : String → String → Bool} :
    ∀ {ms : List Member} {fs fs₁ : FS} {outs : List Outcome},
      processMembers rules u wf fs ms = ⟨fs₁, outs, none⟩ →
      List.Forall₂ (fun (m : Member) (out : Outcome) =>
        m.eligible = true → basename m.filename ≠ "" →
        (∃ f n, out = .skipExists f n) ∨ ∃ f n b, out = .extracted f n b)
        ms outs := by
  intro ms
  induction ms with
  | nil =>
    intro fs fs₁ outs h
    simp only [processMembers, MembersResult.mk.injEq] at h
    obtain ⟨-, rfl, -⟩ := h
    exact List.Forall₂.nil
  | cons m ms ih =>
    intro fs fs₁ outs h
    cases hm : processMember rules u wf fs m with
    | err fs' e =>
      rw [processMembers, hm] at h
      simp at h
    | ok fs' out =>
      cases hr : processMembers rules u wf fs' ms with
      | mk fs'' outs' e' =>
        simp only [processMembers, hm, hr, MembersResult.mk.injEq] at h
        obtain ⟨-, rfl, he'⟩ := h
        subst he'
        exact List.Forall₂.cons (fun he hb => pm_ok_terminal hm he hb) (ih hr)

/-- An archive reported done was readable and its member loop ran to
completion, ending exactly in the recorded filesystem and outcomes. -/
theorem pa_done {rules : List (String × String)} {u : String}
    {wf : String → String → Bool} {fs fs' : FS} {a : Archive}
    {outs : List Outcome}
    (h : processArchive rules u wf fs a = (fs', .done outs)) :
    a.readable = true ∧
      processMembers rules u wf fs a.members = ⟨fs', outs, none⟩ := by
  unfold processArchive at h
  cases hr : a.readable with
  | false => rw [hr] at h; simp at h
  | true =>
    rw [hr] at h
    simp only [Bool.true_eq_false, if_false] at h
    refine ⟨rfl, ?_⟩
    cases hms : processMembers rules u wf fs a.members with
    | mk f o e =>
      rw [hms] at h
      cases e with
      | some err => simp at h
      | none =>
        simp only [Prod.mk.injEq, ArchiveResult.done.injEq] at h
        obtain ⟨rfl, rfl⟩ := h
        rfl

/-- Processing one archive only grows the destination tree. -/
theorem pa_fs_extends (rules : List (String × String)) (u : String)
    (wf : String → String → Bool) (fs : FS) (a : Archive) :
    (processArchive rules u wf fs a).1.Extends fs := by
  unfold processArchive
  cases a.readable with
  | false => simp; exact fsExtends_refl fs
  | true =>
    simp only [Bool.true_eq_false, if_false]
    cases hms : processMembers rules u wf fs a.members with
    | mk f o e =>
      have h := ms_fs_extends rules u wf a.members fs
      rw [hms] at h
      cases e <;> simpa using h

/-- Re-running a finished archive from any filesystem extending its
final state changes nothing and reports every handled member skipped. -/
theorem pa_settled {rules : List (String × String)} {u : String}
    {wf : String → String → Bool} {fs fs' : FS} {a : Archive}
    {outs : List Outcome}
    (h : processArchive rules u wf fs a = (fs', .done outs))
    (wf₂ : String → String → Bool) :
    ∀ fs₂, fs₂.Extends fs' →
      processArchive rules u wf₂ fs₂ a = (fs₂, .done (outs.map reprocess)) := by
  intro fs₂ hext
  obtain ⟨hr, hms⟩ := pa_done h
  have h₂ := ms_settled wf₂ hms fs₂ hext
  unfold processArchive
  rw [hr]
  simp only [Bool.true_eq_false, if_false, h₂]

/-- A whole run only grows the destination tree and never changes the
content of a file that already existed when the run started. -/
theorem pz_fs_extends (rules : List (String × String)) (u : String)
    (wf : String → String → Bool) :
    ∀ (as : List Archive) (fs : FS),
      (processZips rules u wf fs as).1.Extends fs := by
  intro as
  induction as with
  | nil => intro fs; exact fsExtends_refl fs
  | cons a as ih =>
    intro fs
    cases hpa : processArchive rules u wf fs a with
    | mk fsa r =>
      have h1 : fsa.Extends fs := by
        have h := pa_fs_extends rules u wf fs a
        rw [hpa] at h
        exact h
      cases hpz : processZips rules u wf fsa as with
      | mk fs₂ rs =>
        have h2 : fs₂.Extends fsa := by
          have h := ih fsa
          rw [hpz] at h
          exact h
        simpa [processZips, hpa, hpz] using fsExtends_trans h2 h1

/-- Re-running a whole run in which every archive finished (and so was
relocated) changes nothing: the filesystem stays as it was and every
archive again finishes, its members now reported skipped. -/
theorem pz_settled {rules : List (String × String)} {u : String}
    {wf : String → String → Bool} (wf₂ : String → String → Bool) :
    ∀ {as : List Archive} {fs fs₁ : FS} {res : List (String × ArchiveResult)},
      processZips rules u wf fs as = (fs₁, res) →
      (∀ r ∈ res, r.2.relocated = true) →
      ∀ fs₂, fs₂.Extends fs₁ →
        processZips rules u wf₂ fs₂ as =
          (fs₂, res.map fun p => (p.1, reprocessResult p.2)) := by
  intro as
  induction as with
  | nil =>
    intro fs fs₁ res h _ fs₂ _
    simp only [processZips, Prod.mk.injEq] at h
    obtain ⟨rfl, rfl⟩ := h
    simp [processZips]
  | cons a as ih =>
    intro fs fs₁ res h hrel fs₂ hext
    cases hpa : processArchive rules u wf fs a with
    | mk fsa r =>
      cases hpz : processZips rules u wf fsa as with
      | mk fs₁' rs =>
        simp only [processZips, hpa, hpz, Prod.mk.injEq] at h
        obtain ⟨rfl, rfl⟩ := h
        have hrel_a : r.relocated = true :=
          hrel (a.name, r) (List.mem_cons_self _ _)
        have hdone : ∃ outs, r = .done outs := by
          cases r with
          | done outs => exact ⟨outs, rfl⟩
          | openFailed => simp [ArchiveResult.relocated] at hrel_a
          | aborted e outs => simp [ArchiveResult.relocated] at hrel_a
        obtain ⟨outs, rfl⟩ := hdone
        have hext_a : fs₂.Extends fsa := by
          refine fsExtends_trans hext ?_
          have h := pz_fs_extends rules u wf as fsa
          rw [hpz] at h
          exact h
        have hpa₂ := pa_settled hpa wf₂ fs₂ hext_a
        have htail := ih hpz (fun p hp => hrel p (List.mem_cons_of_mem _ hp))
          fs₂ hext
        simp [processZips, hpa₂, htail, reprocessResult]

/-- A re-run outcome is never an extraction. -/
theorem reprocess_shape (o : Outcome) :
    reprocess o = .ignored ∨ ∃ f n, reprocess o = .skipExists f n := by
  cases o with
  | ignored => exact Or.inl rfl
  | skipExists f n => exact Or.inr ⟨f, n, rfl⟩
  | extracted f n b => exact Or.inr ⟨f, n, rfl⟩

/-- Re-run outcomes contribute nothing to count_moved. -/
theorem countMoved_reprocess (outs : List Outcome) :
    countMoved (outs.map reprocess) = 0 := by
  induction outs with
  | nil => rfl
  | cons o t ih => cases o <;> simp [reprocess, countMoved, outMoved, ih]

/-- Re-run outcomes contribute nothing to count_unsorted. -/
theorem countUnsorted_reprocess (outs : List Outcome) :
    countUnsorted (outs.map reprocess) = 0 := by
  induction outs with
  | nil => rfl
  | cons o t ih => cases o <;> simp [reprocess, countUnsorted, outUnsorted, ih]

/-- Re-running results that all finished yields zero counters. -/
theorem runCounts_reprocess :
    ∀ (res : List (String × ArchiveResult)),
      (∀ r ∈ res, r.2.relocated = true) →
      runMoved (res.map fun p => (p.1, reprocessResult p.2)) = 0 ∧
        runUnsorted (res.map fun p => (p.1, reprocessResult p.2)) = 0 := by
  intro res
  induction res with
  | nil => intro _; exact ⟨rfl, rfl⟩
  | cons p t ih =>
    intro h
    have hp := h p (List.mem_cons_self _ _)
    have ht := ih fun q hq => h q (List.mem_cons_of_mem _ hq)
    obtain ⟨outs, hq⟩ : ∃ outs, p.2 = .done outs := by
      cases hr : p.2 with
      | done outs => exact ⟨outs, rfl⟩
      | openFailed => rw [hr] at hp; simp [ArchiveResult.relocated] at hp
      | aborted e outs => rw [hr] at hp; simp [ArchiveResult.relocated] at hp
    constructor
    · have h1 : runMoved (List.map (fun q => (q.1, reprocessResult q.2)) (p :: t)) =
          countMoved (reprocessResult p.2).outcomes +
            runMoved (List.map (fun q => (q.1, reprocessResult q.2)) t) := rfl
      rw [h1, hq]
      have h2 : countMoved (reprocessResult (ArchiveResult.done outs)).outcomes =
          countMoved (List.map reprocess outs) := rfl
      rw [h2, countMoved_reprocess, ht.1]
    · have h1 : runUnsorted (List.map (fun q => (q.1, reprocessResult q.2)) (p :: t)) =
          countUnsorted (reprocessResult p.2).outcomes +
            runUnsorted (List.map (fun q => (q.1, reprocessResult q.2)) t) := rfl
      rw [h1, hq]
      have h2 : countUnsorted (reprocessResult (ArchiveResult.done outs)).outcomes =
          countUnsorted (List.map reprocess outs) := rfl
      rw [h2, countUnsorted_reprocess, ht.2]

/-- Every outcome of a re-run over finished results is an informational
skip or outside scope. -/
theorem mapped_outs_shape :
    ∀ (res : List (String × ArchiveResult)),
      (∀ r ∈ res, r.2.relocated = true) →
      ∀ p ∈ res.map (fun p => (p.1, reprocessResult p.2)),
        ∀ out ∈ p.2.outcomes,
          out = Outcome.ignored ∨ ∃ f n, out = Outcome.skipExists f n := by
  intro res hrel p hp out hout
  obtain ⟨q, hq, rfl⟩ := List.mem_map.mp hp
  have hrq := hrel q hq
  obtain ⟨outs, hqq⟩ : ∃ outs, q.2 = .done outs := by
    cases hr : q.2 with
    | done outs => exact ⟨outs, rfl⟩
    | openFailed => rw [hr] at hrq; simp [ArchiveResult.relocated] at hrq
    | aborted e outs => rw [hr] at hrq; simp [ArchiveResult.relocated] at hrq
  rw [hqq] at hout
  simp only [reprocessResult, ArchiveResult.outcomes] at hout
  obtain ⟨o, -, rfl⟩ := List.mem_map.mp hout
  exact reprocess_shape o

/-- A list is a leading segment of itself followed by anything. -/
theorem revPre_self_append : ∀ (p t : List Char), revPre p (p ++ t) = true := by
  intro p t
  induction p with
  | nil => rfl
  | cons c cs ih => simp [revPre, ih]

/-- The zero write-failure oracle: every write succeeds. -/
def wfNone : String → String → Bool := fun _ _ => false

/-- A write-failure oracle failing exactly on the file A.package. -/
def wfA : String → String → Bool := fun _ n => n == "A.package"

/-- Claim C1: for every filename and every ordered rule set in which at
least two rule patterns match the filename, classification returns the
category of the rule appearing first in the rule order, with matched
true; in particular for rules hair to "hai" and accessories to "air"
against filename "long_hair_01.package" the category is hair. -/
theorem rule_order_determines_outcome :
    (∀ (pre rest : List (String × String)) (c p u fname : String),
      (∀ r ∈ pre, reSearchI r.2 fname = some false) →
      reSearchI p fname = some true →
      (∃ r ∈ rest, reSearchI r.2 fname = some true) →
      classify (pre ++ (c, p) :: rest) u fname = some (c, true))
    ∧ classify [("hair", "hai"), ("accessories", "air")] "_unsorted"
        "long_hair_01.package" = some ("hair", true) := by
  constructor
  · intro pre
    induction pre with
    | nil =>
      intro rest c p u fname _ hp _
      simp [classify, hp]
    | cons r pre ih =>
      intro rest c p u fname hpre hp hrest
      obtain ⟨rc, rp⟩ := r
      have hr : reSearchI rp fname = some false := by
        simpa using hpre (rc, rp) (List.mem_cons_self _ _)
      simp only [List.cons_append, classify, hr]
      exact ih rest c p u fname
        (fun q hq => hpre q (List.mem_cons_of_mem _ hq)) hp hrest
  · decide

/-- Claim C1 witness: the two-rule example, applied through the general
first-match statement with the empty earlier-rules segment. -/
theorem rule_order_witness :
    classify ([] ++ ("hair", "hai") :: [("accessories", "air")]) "_unsorted"
      "long_hair_01.package" = some ("hair", true) :=
  rule_order_determines_outcome.1 [] [("accessories", "air")] "hair" "hai"
    "_unsorted" "long_hair_01.package" (by simp) (by decide)
    ⟨("accessories", "air"), by simp, by decide⟩

/-- Claim C6: classification is a pure deterministic function of the
rule set, fallback name and filename alone (its type takes no
filesystem or locale state), and whenever it returns a result the
category is a rule-set key when matched is true and the fallback name
when matched is false. -/
theorem classify_pure_and_ranged :
    ∀ (rules : List (String × String)) (u fname : String),
      classify rules u fname = classify rules u fname ∧
      ∀ cat b, classify rules u fname = some (cat, b) →
        (b = true ∧ cat ∈ rules.map Prod.fst) ∨ (b = false ∧ cat = u) := by
  intro rules u fname
  refine ⟨rfl, ?_⟩
  induction rules with
  | nil =>
    intro cat b h
    simp only [classify, Option.some.injEq, Prod.mk.injEq] at h
    exact Or.inr ⟨h.2.symm, h.1.symm⟩
  | cons r rules ih =>
    intro cat b h
    obtain ⟨rc, rp⟩ := r
    simp only [classify] at h
    cases hs : reSearchI rp fname with
    | none => rw [hs] at h; simp at h
    | some bb =>
      rw [hs] at h
      cases bb with
      | true =>
        simp only [Option.some.injEq, Prod.mk.injEq] at h
        exact Or.inl ⟨h.2.symm, by
          rw [← h.1]
          simp⟩
      | false =>
        rcases ih cat b h with ⟨hb, hmem⟩ | hr
        · exact Or.inl ⟨hb, by simp [hmem]⟩
        · exact Or.inr hr

/-- Claim C6 witness: a concrete classification, its determinism and the
range property instantiated. -/
theorem classify_ranged_witness :
    (classify [("hair", "hai")] "_unsorted" "a_hair.package" =
      classify [("hair", "hai")] "_unsorted" "a_hair.package")
    ∧ ((true = true ∧ "hair" ∈ ["hair"]) ∨ (true = false ∧ "hair" = "_unsorted")) :=
  ⟨(classify_pure_and_ranged [("hair", "hai")] "_unsorted" "a_hair.package").1,
    (classify_pure_and_ranged [("hair", "hai")] "_unsorted" "a_hair.package").2
      "hair" true (by decide)⟩

/-- Claim C7: a directory entry, or a member whose name does not end in
the tracked extension, is never classified, extracted or counted: the
iteration returns the filesystem unchanged with the outside-scope
outcome, which contributes zero to both counters. -/
theorem out_of_scope_member_untouched :
    ∀ (rules : List (String × String)) (u : String)
      (wf : String → String → Bool) (fs : FS) (m : Member),
      (m.isDir = true ∨ strEndsWith (lowerStr m.filename) ".package" = false) →
      processMember rules u wf fs m = .ok fs .ignored ∧
        outMoved Outcome.ignored = 0 ∧ outUnsorted Outcome.ignored = 0 := by
  intro rules u wf fs m h
  have he : m.eligible = false := by
    unfold Member.eligible
    rcases h with h | h
    · rw [h]; simp
    · rw [h]; simp
  exact ⟨by simp [processMember, he], rfl, rfl⟩

/-- Claim C7 witness: a text file inside the archive is left alone. -/
theorem out_of_scope_witness :
    processMember [] "_unsorted" wfNone ⟨[], []⟩ ⟨"readme.txt", [1]⟩ =
      .ok ⟨[], []⟩ .ignored ∧
      outMoved Outcome.ignored = 0 ∧ outUnsorted Outcome.ignored = 0 :=
  out_of_scope_member_untouched [] "_unsorted" wfNone ⟨[], []⟩
    ⟨"readme.txt", [1]⟩ (Or.inr (by decide))

/-- Claim C9: a member whose flattened base filename is empty is
silently skipped before classification: the filesystem is unchanged (no
directory created, nothing written) and the outcome contributes zero to
both counters. -/
theorem empty_basename_skipped :
    ∀ (rules : List (String × String)) (u : String)
      (wf : String → String → Bool) (fs : FS) (m : Member),
      basename m.filename = "" →
      processMember rules u wf fs m = .ok fs .ignored ∧
        outMoved Outcome.ignored = 0 ∧ outUnsorted Outcome.ignored = 0 := by
  intro rules u wf fs m hb
  refine ⟨?_, rfl, rfl⟩
  by_cases he : m.eligible = true
  · simp [processMember, processEligible, he, hb]
  · have he' : m.eligible = false := by
      revert he
      cases m.eligible <;> simp
    simp [processMember, he']

/-- Claim C9 witness: a slash-terminated path flattens to the empty
name and is skipped without any effect. -/
theorem empty_basename_witness :
    processMember [] "_unsorted" wfNone ⟨[], []⟩ ⟨"folder/", [1]⟩ =
      .ok ⟨[], []⟩ .ignored ∧
      outMoved Outcome.ignored = 0 ∧ outUnsorted Outcome.ignored = 0 :=
  empty_basename_skipped [] "_unsorted" wfNone ⟨[], []⟩ ⟨"folder/", [1]⟩
    (by decide)

/-- Witness data: a destination tree already holding hair/RedHair.package. -/
def fsW : FS := ⟨["hair"], [(("hair", "RedHair.package"), [9])]⟩

/-- Witness data: a member flattening to RedHair.package. -/
def mW : Member := ⟨"x/RedHair.package", [9]⟩

/-- Witness data: an archive holding just that member. -/
def aW : Archive := ⟨"p.zip", true, [mW]⟩

/-- Witness data: the run result over that archive from fsW. -/
def resW : List (String × ArchiveResult) :=
  [("p.zip", .done [.skipExists "hair" "RedHair.package"])]

/-- Claim C2: a member whose destination file already exists is skipped
and the file is never overwritten (a whole run preserves the content of
every pre-existing file); consequently a second run over the same
archives, when the first run finished every archive, changes nothing,
reports every handled member as skipped and adds nothing to either
counter. -/
theorem no_overwrite_and_idempotent :
    (∀ (rules : List (String × String)) (u : String)
        (wf : String → String → Bool) (fs : FS) (m : Member)
        (folder : String) (matched : Bool),
      m.eligible = true → basename m.filename ≠ "" →
      classify rules u (basename m.filename) = some (folder, matched) →
      (fs.mkdir folder).fileExists folder (basename m.filename) = true →
      processMember rules u wf fs m =
        .ok (fs.mkdir folder) (.skipExists folder (basename m.filename)))
    ∧ (∀ (rules : List (String × String)) (u : String)
        (wf : String → String → Bool) (fs : FS) (as : List Archive)
        (f n : String),
      fs.fileExists f n = true →
      (processZips rules u wf fs as).1.lookupFile f n = fs.lookupFile f n)
    ∧ (∀ (rules : List (String × String)) (u : String)
        (wf : String → String → Bool) (fs fs₁ : FS)
        (res : List (String × ArchiveResult)) (as : List Archive),
      processZips rules u wf fs as = (fs₁, res) →
      (∀ r ∈ res, r.2.relocated = true) →
      processZips rules u wf fs₁ as =
          (fs₁, res.map fun p => (p.1, reprocessResult p.2))
        ∧ runMoved (res.map fun p => (p.1, reprocessResult p.2)) = 0
        ∧ runUnsorted (res.map fun p => (p.1, reprocessResult p.2)) = 0
        ∧ ∀ p ∈ res.map (fun p => (p.1, reprocessResult p.2)),
            ∀ out ∈ p.2.outcomes,
              out = Outcome.ignored ∨ ∃ f n, out = Outcome.skipExists f n) := by
  refine ⟨?_, ?_, ?_⟩
  · intro rules u wf fs m folder matched he hb hc hex
    simp [processMember, processEligible, he, hb, hc, hex]
  · intro rules u wf fs as f n he
    exact (pz_fs_extends rules u wf as fs).2 f n he
  · intro rules u wf fs fs₁ res as h hrel
    exact ⟨pz_settled wf h hrel fs₁ (fsExtends_refl fs₁),
      (runCounts_reprocess res hrel).1, (runCounts_reprocess res hrel).2,
      mapped_outs_shape res hrel⟩

/-- Claim C2 witness: a pre-existing RedHair.package is skipped, its
content preserved, and the re-run over the archive reports it skipped
with zero counters. -/
theorem no_overwrite_witness :
    (processMember [("hair", "hair")] "_unsorted" wfNone fsW mW =
      .ok (fsW.mkdir "hair") (.skipExists "hair" "RedHair.package"))
    ∧ ((processZips [("hair", "hair")] "_unsorted" wfNone fsW [aW]).1.lookupFile
        "hair" "RedHair.package" = fsW.lookupFile "hair" "RedHair.package")
    ∧ (processZips [("hair", "hair")] "_unsorted" wfNone fsW [aW] =
        (fsW, [("p.zip", ArchiveResult.done
          [Outcome.skipExists "hair" "RedHair.package"])]))
    ∧ runMoved [("p.zip", ArchiveResult.done
        [Outcome.skipExists "hair" "RedHair.package"])] = 0
    ∧ runUnsorted [("p.zip", ArchiveResult.done
        [Outcome.skipExists "hair" "RedHair.package"])] = 0 := by
  have h3 := no_overwrite_and_idempotent.2.2 [("hair", "hair")] "_unsorted"
    wfNone fsW fsW resW [aW] (by decide) (by decide)
  exact ⟨no_overwrite_and_idempotent.1 [("hair", "hair")] "_unsorted" wfNone
      fsW mW "hair" true (by decide) (by decide) (by decide) (by decide),
    no_overwrite_and_idempotent.2.1 [("hair", "hair")] "_unsorted" wfNone fsW
      [aW] "hair" "RedHair.package" (by decide),
    h3.1, h3.2.1, h3.2.2.1⟩

/-- Claim C3: an archive result of done means the archive was readable
and every one of its members reached a terminal outcome (eligible
members with a nonempty base name were skipped or extracted) before the
relocation that done records; an unreadable archive is never relocated,
the filesystem is untouched by it, and the run continues with the
remaining archives. -/
theorem relocation_after_members :
    ∀ (rules : List (String × String)) (u : String)
      (wf : String → String → Bool) (fs : FS) (a : Archive),
      (∀ (fs' : FS) (outs : List Outcome),
        processArchive rules u wf fs a = (fs', .done outs) →
        a.readable = true ∧
          List.Forall₂ (fun (m : Member) (out : Outcome) =>
            m.eligible = true → basename m.filename ≠ "" →
            (∃ f n, out = .skipExists f n) ∨ ∃ f n b, out = .extracted f n b)
            a.members outs)
      ∧ (a.readable = false →
          ∀ as, processZips rules u wf fs (a :: as) =
              ((processZips rules u wf fs as).1,
                (a.name, ArchiveResult.openFailed) ::
                  (processZips rules u wf fs as).2)
            ∧ ArchiveResult.openFailed.relocated = false) := by
  intro rules u wf fs a
  constructor
  · intro fs' outs h
    obtain ⟨hr, hms⟩ := pa_done h
    exact ⟨hr, ms_terminal hms⟩
  · intro hr as
    refine ⟨?_, rfl⟩
    have hpa : processArchive rules u wf fs a = (fs, .openFailed) := by
      unfold processArchive
      rw [hr]
      simp
    cases hpz : processZips rules u wf fs as with
    | mk fs₂ rs => simp [processZips, hpa, hpz]

/-- Claim C3 witness: a finished archive was readable, and an
unreadable archive is left in place while the run goes on. -/
theorem relocation_witness :
    ((Archive.mk "a.zip" true [⟨"x/Y.package", [1]⟩]).readable = true)
    ∧ (processZips [] "_unsorted" wfNone ⟨[], []⟩
          [Archive.mk "bad.zip" false []] =
        (⟨[], []⟩, [("bad.zip", ArchiveResult.openFailed)]))
    ∧ ArchiveResult.openFailed.relocated = false := by
  have h1 := (relocation_after_members [] "_unsorted" wfNone ⟨[], []⟩
    (Archive.mk "a.zip" true [⟨"x/Y.package", [1]⟩])).1
    ⟨["_unsorted"], [(("_unsorted", "Y.package"), [1])]⟩
    [.extracted "_unsorted" "Y.package" false] (by decide)
  have h2 := (relocation_after_members [] "_unsorted" wfNone ⟨[], []⟩
    (Archive.mk "bad.zip" false [])).2 rfl []
  exact ⟨h1.1, h2.1, h2.2⟩

/-- Claim C8: an eligible member nested below directories inside the
archive is written under the category folder using only its base
filename, and nothing else in the destination tree changes: every other
path keeps its previous content. -/
theorem flattening_extraction :
    ∀ (rules : List (String × String)) (u : String)
      (wf : String → String → Bool) (fs : FS) (m : Member)
      (folder : String) (matched : Bool),
      m.eligible = true →
      basename m.filename ≠ "" →
      classify rules u (basename m.filename) = some (folder, matched) →
      (fs.mkdir folder).fileExists folder (basename m.filename) = false →
      wf folder (basename m.filename) = false →
      processMember rules u wf fs m =
        .ok ((fs.mkdir folder).write folder (basename m.filename) m.content)
          (.extracted folder (basename m.filename) matched)
      ∧ ∀ f' n', (f', n') ≠ (folder, basename m.filename) →
          ((fs.mkdir folder).write folder (basename m.filename)
            m.content).lookupFile f' n' = fs.lookupFile f' n' := by
  intro rules u wf fs m folder matched he hb hc hex hwf
  constructor
  · simp [processMember, processEligible, he, hb, hc, hex, hwf]
  · intro f' n' hk
    rw [lookup_write_ne _ m.content hk, lookup_mkdir]

/-- Claim C8 witness: subdir/deep/MyHat.package is written as
MyHat.package directly under its category folder, and an unrelated
path is untouched. -/
theorem flattening_witness :
    processMember [("hats", "hat")] "_unsorted" wfNone ⟨[], []⟩
        ⟨"subdir/deep/MyHat.package", [5]⟩ =
      .ok ((FS.mk [] []).mkdir "hats" |>.write "hats" "MyHat.package" [5])
        (.extracted "hats" "MyHat.package" true)
    ∧ ((FS.mk [] []).mkdir "hats" |>.write "hats"
        "MyHat.package" [5]).lookupFile "subdir" "deep" =
      (FS.mk [] []).lookupFile "subdir" "deep" := by
  have h := flattening_extraction [("hats", "hat")] "_unsorted" wfNone
    ⟨[], []⟩ ⟨"subdir/deep/MyHat.package", [5]⟩ "hats" true (by decide)
    (by decide) (by decide) (by decide) (by decide)
  exact ⟨h.1, h.2 "subdir" "deep" (by decide)⟩

/-- Claim C4 counterexample: with a write failure on A.package, the
sibling member B.package of the same archive is never processed — the
archive aborts with no outcomes and B.package is absent from the
destination, refuting that a per-member write failure lets processing
continue with the next member. -/
theorem write_failure_cex :
    processArchive [] "_unsorted" wfA ⟨[], []⟩
        (Archive.mk "z.zip" true [⟨"A.package", [1]⟩, ⟨"B.package", [2]⟩]) =
      (⟨["_unsorted"], []⟩, .aborted (.writeError "_unsorted" "A.package") [])
    ∧ FS.fileExists ⟨["_unsorted"], []⟩ "_unsorted" "B.package" = false := by
  exact ⟨by decide, by decide⟩

/-- Claim C4 (amended): a write failure on a member is reported as an
archive-level exception: the member is counted as neither matched nor
fallback and the archive is not relocated, but the remaining members of
the same archive are skipped entirely; processing continues with the
next archive. -/
theorem write_failure_aborts_archive :
    ∀ (rules : List (String × String)) (u : String)
      (wf : String → String → Bool) (fs fs' : FS) (m : Member)
      (f n nm : String) (ms : List Member) (as : List Archive),
      processMember rules u wf fs m = .err fs' (.writeError f n) →
      processMembers rules u wf fs (m :: ms) =
          ⟨fs', [], some (.writeError f n)⟩
        ∧ processZips rules u wf fs (Archive.mk nm true (m :: ms) :: as) =
            ((processZips rules u wf fs' as).1,
              (nm, ArchiveResult.aborted (.writeError f n) []) ::
                (processZips rules u wf fs' as).2)
        ∧ (ArchiveResult.aborted (.writeError f n) []).relocated = false
        ∧ countMoved (ArchiveResult.aborted (.writeError f n) []).outcomes = 0
        ∧ countUnsorted
            (ArchiveResult.aborted (.writeError f n) []).outcomes = 0 := by
  intro rules u wf fs fs' m f n nm ms as hm
  have hms : processMembers rules u wf fs (m :: ms) =
      ⟨fs', [], some (.writeError f n)⟩ := by
    simp [processMembers, hm]
  refine ⟨hms, ?_, rfl, rfl, rfl⟩
  have hpa : processArchive rules u wf fs (Archive.mk nm true (m :: ms)) =
      (fs', .aborted (.writeError f n) []) := by
    unfold processArchive
    simp [hms]
  cases hpz : processZips rules u wf fs' as with
  | mk fs₂ rs => simp [processZips, hpa, hpz]

/-- Claim C4 witness for the amended statement: the concrete aborting
archive, with the run continuing after it. -/
theorem write_failure_witness :
    processMembers [] "_unsorted" wfA ⟨[], []⟩
        [⟨"A.package", [1]⟩, ⟨"B.package", [2]⟩] =
      ⟨⟨["_unsorted"], []⟩, [], some (.writeError "_unsorted" "A.package")⟩
    ∧ processZips [] "_unsorted" wfA ⟨[], []⟩
        [Archive.mk "z.zip" true [⟨"A.package", [1]⟩, ⟨"B.package", [2]⟩]] =
      (⟨["_unsorted"], []⟩,
        [("z.zip", ArchiveResult.aborted
          (.writeError "_unsorted" "A.package") [])])
    ∧ (ArchiveResult.aborted (.writeError "_unsorted" "A.package") []).relocated
        = false
    ∧ countMoved (ArchiveResult.aborted
        (.writeError "_unsorted" "A.package") []).outcomes = 0
    ∧ countUnsorted (ArchiveResult.aborted
        (.writeError "_unsorted" "A.package") []).outcomes = 0 :=
  write_failure_aborts_archive [] "_unsorted" wfA ⟨[], []⟩ ⟨["_unsorted"], []⟩
    ⟨"A.package", [1]⟩ "_unsorted" "A.package" "z.zip" [⟨"B.package", [2]⟩]
    [] (by decide)

/-- Witness data: a configuration document holding one malformed rule
pattern. -/
def docW : ConfigDoc := ⟨none, none, none, some [("hair", "(")]⟩

/-- Claim C5 counterexample: a rule set holding the malformed pattern
left parenthesis loads without any failure, and the failure instead
happens per-file when a member filename is classified — refuting that a
malformed pattern fails at rule-set load time and never per-file. -/
theorem pattern_load_cex :
    load_config true (some docW) = .ok docW
    ∧ classify [("hair", "(")] "_unsorted" "foo.package" = none := by
  exact ⟨rfl, by decide⟩

/-- Claim C5 (amended): rule-set loading performs no pattern
validation — any document loads unchanged — and a malformed pattern
instead raises during per-file classification when its rule is reached,
which surfaces as the archive-level regex error for the member being
classified; files classified earlier by valid patterns are unaffected. -/
theorem pattern_fails_per_file :
    (∀ doc : ConfigDoc, load_config true (some doc) = .ok doc)
    ∧ (∀ (pre post : List (String × String)) (c p u fname : String),
        parseRegex p = none →
        (∀ r ∈ pre, reSearchI r.2 fname = some false) →
        classify (pre ++ (c, p) :: post) u fname = none)
    ∧ (∀ (rules : List (String × String)) (u : String)
        (wf : String → String → Bool) (fs : FS) (m : Member),
        m.eligible = true → basename m.filename ≠ "" →
        classify rules u (basename m.filename) = none →
        processMember rules u wf fs m = .err fs .regexError) := by
  refine ⟨fun doc => rfl, ?_, ?_⟩
  · intro pre
    induction pre with
    | nil =>
      intro post c p u fname hp _
      have hs : reSearchI p fname = none := by
        simp [reSearchI, hp]
      simp [classify, hs]
    | cons r pre ih =>
      intro post c p u fname hp hpre
      obtain ⟨rc, rp⟩ := r
      have hr : reSearchI rp fname = some false := by
        simpa using hpre (rc, rp) (List.mem_cons_self _ _)
      simp only [List.cons_append, classify, hr]
      exact ih post c p u fname hp
        fun q hq => hpre q (List.mem_cons_of_mem _ hq)
  · intro rules u wf fs m he hb hc
    simp [processMember, processEligible, he, hb, hc]

/-- Claim C5 witness for the amended statement: the malformed pattern
loads, then raises at classification and aborts the member. -/
theorem pattern_per_file_witness :
    load_config true (some docW) = .ok docW
    ∧ classify ([] ++ ("hair", "(") :: []) "_unsorted" "foo.package" = none
    ∧ processMember [("hair", "(")] "_unsorted" wfNone ⟨[], []⟩
        ⟨"foo.package", [1]⟩ = .err ⟨[], []⟩ .regexError :=
  ⟨pattern_fails_per_file.1 docW,
    pattern_fails_per_file.2.1 [] [] "hair" "(" "_unsorted" "foo.package"
      (by decide) (by simp),
    pattern_fails_per_file.2.2 [("hair", "(")] "_unsorted" wfNone ⟨[], []⟩
      ⟨"foo.package", [1]⟩ (by decide) (by decide) (by decide)⟩

/-- The character list underlying a constructed string. -/
theorem strMk_data (l : List Char) : (String.mk l).data = l := rfl

/-- Claim C10: the tracked-extension check is case-insensitive — a
non-directory member whose name ends in any casing of ".package" is
eligible and goes through the same eligible-member path as a lowercase
one. -/
theorem ext_casing_eligible :
    ∀ (rules : List (String × String)) (u : String)
      (wf : String → String → Bool) (fs : FS) (m : Member)
      (stem ext : String),
      m.filename = stem ++ ext → lowerStr ext = ".package" →
      m.eligible = true ∧
        processMember rules u wf fs m = processEligible rules u wf fs m := by
  intro rules u wf fs m stem ext hfn hl
  have hdata : ext.data.map Char.toLower = ".package".data :=
    congrArg String.data hl
  have hfnd : m.filename.data = stem.data ++ ext.data := by
    rw [hfn, String.data_append]
  have hends : strEndsWith (lowerStr m.filename) ".package" = true := by
    unfold strEndsWith lowerStr
    rw [strMk_data, hfnd, List.map_append, hdata, List.reverse_append]
    exact revPre_self_append _ _
  have hnd : m.isDir = false := by
    unfold Member.isDir strEndsWith
    have hslash : ("/" : String).data.reverse = ['/'] := by decide
    rw [hslash, hfnd, List.reverse_append]
    have hne : ext.data ≠ [] := by
      intro h0
      rw [h0] at hdata
      simp only [List.map_nil] at hdata
      exact absurd hdata.symm (by decide)
    cases hrev : ext.data.reverse with
    | nil => exact absurd (List.reverse_eq_nil_iff.mp hrev) hne
    | cons lastc restR =>
      have h2 : ext.data.reverse.map Char.toLower = ".package".data.reverse := by
        rw [List.map_reverse, hdata]
      rw [hrev] at h2
      have h3 : ".package".data.reverse =
          'e' :: ['g', 'a', 'k', 'c', 'a', 'p', '.'] := by decide
      rw [h3] at h2
      simp only [List.map_cons, List.cons.injEq] at h2
      have hlast : Char.toLower lastc = 'e' := h2.1
      have hneq : ('/' : Char) ≠ lastc := by
        intro h
        rw [← h] at hlast
        exact absurd hlast (by decide)
      simp [revPre, hneq]
  have he : m.eligible = true := by
    unfold Member.eligible
    rw [hends, hnd]
    rfl
  exact ⟨he, by simp [processMember, he]⟩

/-- Claim C10 witness: FOO.PACKAGE is eligible and handled through the
eligible-member path. -/
theorem ext_casing_witness :
    (⟨"FOO.PACKAGE", [0]⟩ : Member).eligible = true
    ∧ processMember [] "_unsorted" wfNone ⟨[], []⟩ ⟨"FOO.PACKAGE", [0]⟩ =
        processEligible [] "_unsorted" wfNone ⟨[], []⟩ ⟨"FOO.PACKAGE", [0]⟩ :=
  ext_casing_eligible [] "_unsorted" wfNone ⟨[], []⟩ ⟨"FOO.PACKAGE", [0]⟩
    "FOO" ".PACKAGE" (by decide) (by decide)
